import Mathlib

/-!
Shallow embedding of the bidirectional dictionary of `izy` (`src/izy/bidict.py`).

A Python `dict` is modelled as an association list in insertion order:
`d[k] = v` overwrites the value in place when `k` is present and appends a
fresh entry otherwise; `del d[k]` removes the entry; lookup takes the first
entry with the given key.  A `Bidict` value holds the forward dictionary
together with its bound peer, the reverse dictionary.
-/

set_option linter.unusedSectionVars false

variable {α β : Type} [DecidableEq α] [DecidableEq β]

/-- Python `d[k]`: lookup of the first entry with key `k`. -/
def dget : List (α × β) → α → Option β
  | [], _ => none
  | (a, b) :: t, k => if a = k then some b else dget t k

/-- Python `d[k] = v` on a raw `dict`: overwrite in place when `k` is
present, append otherwise. -/
def dinsert : List (α × β) → α → β → List (α × β)
  | [], k, v => [(k, v)]
  | (a, b) :: t, k, v => if a = k then (k, v) :: t else (a, b) :: dinsert t k v

/-- Python `del d[k]` on a raw `dict`: drop the entry with key `k`. -/
def derase : List (α × β) → α → List (α × β)
  | [], _ => []
  | (a, b) :: t, k => if a = k then t else (a, b) :: derase t k

/-- The state of a `Bidict`: the forward dictionary (`self`, a `Boundict`)
together with its bound peer (`self.r`), the reverse dictionary. -/
structure Bidict (α β : Type) where
  fwd : List (α × β)
  rev : List (β × α)
deriving DecidableEq

/-- A fresh `Bidict()` before any seeding: both dictionaries empty. -/
def Bidict.empty : Bidict α β := ⟨[], []⟩

/-- First half of `Boundict.__setitem__`: `if k in self and self[k] != v:
self.__delitem__(k)`, which drops the peer entry `self[k]` and the own
entry `k`. -/
def Bidict.evictKey (s : Bidict α β) (k : α) (v : β) : Bidict α β :=
  match dget s.fwd k with
  | some v0 => if v0 = v then s else ⟨derase s.fwd k, derase s.rev v0⟩
  | none => s

/-- Second half of `Boundict.__setitem__`: `if v in self.peer and
self.peer[v] != k: self.peer.__delitem__(v)`, which drops the own entry
`self.peer[v]` and the peer entry `v`. -/
def Bidict.evictVal (s : Bidict α β) (v : β) (k : α) : Bidict α β :=
  match dget s.rev v with
  | some k0 => if k0 = k then s else ⟨derase s.fwd k0, derase s.rev v⟩
  | none => s

/-- `Boundict.__setitem__(k, v)` on the forward side: evict a conflicting
pair on either side, then write both raw entries. -/
def Bidict.setitem (s : Bidict α β) (k : α) (v : β) : Bidict α β :=
  let t := (s.evictKey k v).evictVal v k
  ⟨dinsert t.fwd k v, dinsert t.rev v k⟩

/-- `Boundict.__delitem__(k)` on the forward side: `self[k]` raises
`KeyError` when `k` is absent (before any mutation); otherwise the peer
entry `self[k]` and the own entry `k` are removed. -/
def Bidict.delitem (s : Bidict α β) (k : α) : Option (Bidict α β) :=
  match dget s.fwd k with
  | some v => some ⟨derase s.fwd k, derase s.rev v⟩
  | none => none

/-- `Boundict.__delitem__(v)` invoked on the reverse side (`del bd.r[v]`). -/
def Bidict.delitemRev (s : Bidict α β) (v : β) : Option (Bidict α β) :=
  match dget s.rev v with
  | some k => some ⟨derase s.fwd k, derase s.rev v⟩
  | none => none

/-- `Boundict.update(other)`: `for k, v in new_items: self[k] = v`. -/
def Bidict.update (s : Bidict α β) : List (α × β) → Bidict α β
  | [] => s
  | (k, v) :: rest => (s.setitem k v).update rest

/-- `Boundict.__setitem__(v, k)` invoked on the reverse side
(`bd.r[v] = k`): there `self` is the reverse dictionary and `self.peer` the
forward one, so the `v`-side eviction runs first, then the `k`-side one,
then both raw entries are written. -/
def Bidict.setitemRev (s : Bidict α β) (v : β) (k : α) : Bidict α β :=
  let t := (s.evictVal v k).evictKey k v
  ⟨dinsert t.fwd k v, dinsert t.rev v k⟩

/-- Exchange the two directions (used to state that the reverse view runs
the very same code with the roles of the two dictionaries swapped). -/
def Bidict.swap (s : Bidict α β) : Bidict β α := ⟨s.rev, s.fwd⟩

/-- The bijection invariant: every forward entry is mirrored in the reverse
dictionary and vice versa. -/
def Bidict.Inv (s : Bidict α β) : Prop :=
  (∀ p ∈ s.fwd, dget s.rev p.2 = some p.1) ∧
  (∀ q ∈ s.rev, dget s.fwd q.2 = some q.1)

/-- Well-formedness of a `Bidict` state: both underlying dictionaries have
distinct keys (as every Python `dict` does) and the bijection invariant
holds. -/
def Bidict.WF (s : Bidict α β) : Prop :=
  (s.fwd.map Prod.fst).Nodup ∧ (s.rev.map Prod.fst).Nodup ∧ s.Inv

instance (s : Bidict α β) : Decidable s.Inv := by
  unfold Bidict.Inv
  infer_instance

instance (s : Bidict α β) : Decidable s.WF := by
  unfold Bidict.WF
  infer_instance

/-- A script of `set`/`remove` operations (the mutations of claim C1).
`remove` of an absent key raises `KeyError` before mutating anything, so
the state is kept unchanged. -/
inductive SROp (α β : Type) where
  | set (k : α) (v : β)
  | remove (k : α)

/-- Apply one `set`/`remove` operation. -/
def Bidict.applySR (s : Bidict α β) : SROp α β → Bidict α β
  | .set k v => s.setitem k v
  | .remove k => (s.delitem k).getD s

/-- Run a `set`/`remove` script against an initially empty map. -/
def Bidict.runSR (ops : List (SROp α β)) : Bidict α β :=
  ops.foldl Bidict.applySR Bidict.empty

/-- The full mutation surface (claim C4): `set`, `remove`, deletion through
the reverse view (`remove_by_value`, i.e. `del bd.r[v]`) and bulk
`update`.  Failed removals raise before mutating, keeping the state. -/
inductive MOp (α β : Type) where
  | set (k : α) (v : β)
  | remove (k : α)
  | removeByValue (v : β)
  | updateMany (l : List (α × β))

/-- Apply one mutation of the full surface. -/
def Bidict.applyM (s : Bidict α β) : MOp α β → Bidict α β
  | .set k v => s.setitem k v
  | .remove k => (s.delitem k).getD s
  | .removeByValue v => (s.delitemRev v).getD s
  | .updateMany l => s.update l

/-- Run a script of mutations from a given state. -/
def Bidict.runM (s : Bidict α β) (ops : List (MOp α β)) : Bidict α β :=
  ops.foldl Bidict.applyM s

/-- Python `dict(pairs)`: insert the pairs left to right into a fresh raw
`dict`, so duplicate keys keep their first position but the last value. -/
def pydict (l : List (α × β)) : List (α × β) :=
  l.foldl (fun d p => dinsert d p.1 p.2) []

/-- `Bidict(mapping)`: `self.update(args[0])`, i.e. `set` per item in the
mapping's iteration order. -/
def bidictFromMapping (m : List (α × β)) : Bidict α β :=
  Bidict.empty.update m

/-- `Bidict(sequence_of_pairs)`: `self.update(dict(args[0]))` — the raw
sequence is first converted by Python `dict` and only then applied. -/
def bidictFromSeq (l : List (α × β)) : Bidict α β :=
  Bidict.empty.update (pydict l)

/-- A hashable Python value for the constructor model: a string or an
integer. -/
inductive PyV where
  | s (v : String)
  | n (v : Nat)
deriving DecidableEq

/-- A positional argument of `Bidict.__init__`: a string, a mapping, a
sequence of raw elements (each element a list of values; a well-formed
pair has exactly two) or anything else. -/
inductive PosArg where
  | pstr (v : String)
  | pmap (m : List (PyV × PyV))
  | pseq (l : List (List PyV))
  | pother
deriving DecidableEq

/-- `isinstance(arg, str)`. -/
def PosArg.isStr : PosArg → Bool
  | .pstr _ => true
  | _ => false

/-- A keyword-argument value: a hashable scalar or a mutable sequence. -/
inductive KwVal where
  | scalar (x : PyV)
  | mseq (l : List PyV)
deriving DecidableEq

/-- The errors `Bidict.__init__` can raise: `ValueError` (the spec calls it
`InvalidArgument`) and `TypeError` (hashing an unhashable keyword value). -/
inductive InitError where
  | invalidArgument
  | typeError
deriving DecidableEq

/-- Python `dict(seq)` over raw elements: walks the sequence left to right,
checking that each element is a pair; a malformed element raises
`ValueError` out of the fresh dict before `self` is ever touched. -/
def pydictOfRaw (acc : List (PyV × PyV)) :
    List (List PyV) → Option (List (PyV × PyV))
  | [] => some acc
  | (k :: v :: []) :: rest => pydictOfRaw (dinsert acc k v) rest
  | _ :: _ => none

/-- `arg.count('-')` on a Python string. -/
def dashCount (s : String) : Nat :=
  (s.data.filter (fun c => c == '-')).length

/-- `key_name, _, value_name = arg.partition('-')` for a string with
exactly one dash. -/
def splitDash (s : String) : String × String :=
  match s.splitOn "-" with
  | [a, b] => (a, b)
  | _ => ("reverse", "direct")

/-- The positional-argument dispatch of `Bidict.__init__`.  A single
string with exactly one dash names the two views; any other string falls
into the `Sequence` branch (`str` is a `Sequence`), where `dict(arg)`
iterates its characters — one-character elements fail the pair check with
`ValueError` unless the string is empty.  Returns the seeded state with
the key name and the value name. -/
def initPos : List PosArg → Except InitError (Bidict PyV PyV × String × String)
  | [] => .ok (Bidict.empty, "reverse", "direct")
  | [a] =>
    match a with
    | .pstr s1 =>
      if dashCount s1 = 1 then
        .ok (Bidict.empty, (splitDash s1).1, (splitDash s1).2)
      else if s1 = "" then
        .ok (Bidict.empty, "reverse", "direct")
      else
        .error .invalidArgument
    | .pmap m => .ok (Bidict.empty.update m, "reverse", "direct")
    | .pseq l =>
      match pydictOfRaw [] l with
      | some d => .ok (Bidict.empty.update d, "reverse", "direct")
      | none => .error .invalidArgument
    | .pother => .error .invalidArgument
  | [a, b] =>
    match a, b with
    | .pstr s1, .pstr s2 => .ok (Bidict.empty, s1, s2)
    | _, _ => .error .invalidArgument
  | _ => .error .invalidArgument

/-- `self.update(kwargs)` in the fallback keyword branch: each keyword
name becomes a string key; a `MutableSequence` value is unhashable, so the
membership test `v in self.peer` raises `TypeError` and aborts the loop. -/
def applyKw (st : Bidict PyV PyV) :
    List (String × KwVal) → Except InitError (Bidict PyV PyV)
  | [] => .ok st
  | (name, KwVal.scalar x) :: rest => applyKw (st.setitem (PyV.s name) x) rest
  | (_, KwVal.mseq _) :: _ => .error .typeError

/-- `Bidict.__init__(*args, **kwargs)`: positional dispatch first, then
the keyword branch — exactly two keyword arguments whose values are both
mutable sequences seed the map from `zip(keys, values)` (truncating to the
shorter list) and take over the two view names; any other keyword set is
applied as ordinary items. -/
def bidictInit (pos : List PosArg) (kw : List (String × KwVal)) :
    Except InitError (Bidict PyV PyV × String × String) :=
  match initPos pos with
  | .error e => .error e
  | .ok (st0, kn0, vn0) =>
    match kw with
    | [(n1, KwVal.mseq l1), (n2, KwVal.mseq l2)] =>
      .ok (st0.update (l1.zip l2), n1, n2)
    | _ =>
      match applyKw st0 kw with
      | .ok st => .ok (st, kn0, vn0)
      | .error e => .error e

theorem dget_dinsert_self (l : List (α × β)) (k : α) (v : β) :
    dget (dinsert l k v) k = some v := by
  induction l with
  | nil => simp [dinsert, dget]
  | cons hd t ih =>
    obtain ⟨a, b⟩ := hd
    by_cases hak : a = k
    · simp [dinsert, hak, dget]
    · simp [dinsert, hak, dget, ih]

theorem dget_dinsert_ne (l : List (α × β)) {k k' : α} (v : β) (h : k' ≠ k) :
    dget (dinsert l k v) k' = dget l k' := by
  induction l with
  | nil =>
    simp only [dinsert, dget]
    rw [if_neg (fun hh => h hh.symm)]
  | cons hd t ih =>
    obtain ⟨a, b⟩ := hd
    by_cases hak : a = k
    · subst hak
      simp only [dinsert, if_pos rfl, dget]
      rw [if_neg (fun hh => h hh.symm), if_neg (fun hh => h hh.symm)]
    · simp [dinsert, hak, dget, ih]

theorem dget_derase_ne (l : List (α × β)) {k k' : α} (h : k' ≠ k) :
    dget (derase l k) k' = dget l k' := by
  induction l with
  | nil => simp [derase]
  | cons hd t ih =>
    obtain ⟨a, b⟩ := hd
    by_cases hak : a = k
    · have h1 : derase ((a, b) :: t) k = t := by simp [derase, hak]
      have h2 : dget ((a, b) :: t) k' = dget t k' := by
        simp only [dget]
        rw [if_neg (fun hh => h (hh.symm.trans hak))]
      rw [h1, h2]
    · have h1 : derase ((a, b) :: t) k = (a, b) :: derase t k := by
        simp [derase, hak]
      rw [h1]
      simp only [dget, ih]

theorem dget_eq_none_of_not_mem (l : List (α × β)) {k : α}
    (h : k ∉ l.map Prod.fst) : dget l k = none := by
  induction l with
  | nil => rfl
  | cons hd t ih =>
    obtain ⟨a, b⟩ := hd
    simp only [List.map_cons, List.mem_cons] at h
    push_neg at h
    simp only [dget]
    rw [if_neg (fun hh => h.1 hh.symm)]
    exact ih h.2

theorem mem_keys_of_dget {l : List (α × β)} {k : α} {v : β}
    (h : dget l k = some v) : k ∈ l.map Prod.fst := by
  by_contra hk
  rw [dget_eq_none_of_not_mem l hk] at h
  exact Option.noConfusion h

theorem dget_derase_self (l : List (α × β)) (k : α)
    (h : (l.map Prod.fst).Nodup) : dget (derase l k) k = none := by
  induction l with
  | nil => rfl
  | cons hd t ih =>
    obtain ⟨a, b⟩ := hd
    simp only [List.map_cons, List.nodup_cons] at h
    by_cases hak : a = k
    · subst hak
      simp only [derase, if_pos rfl]
      exact dget_eq_none_of_not_mem t h.1
    · simp [derase, hak, dget, ih h.2]

theorem dget_mem {l : List (α × β)} {k : α} {v : β}
    (h : dget l k = some v) : (k, v) ∈ l := by
  induction l with
  | nil => exact Option.noConfusion h
  | cons hd t ih =>
    obtain ⟨a, b⟩ := hd
    by_cases hak : a = k
    · subst hak
      simp [dget] at h
      subst h
      exact List.mem_cons_self _ _
    · simp only [dget, if_neg hak] at h
      exact List.mem_cons_of_mem _ (ih h)

theorem mem_dget {l : List (α × β)} {k : α} {v : β}
    (hn : (l.map Prod.fst).Nodup) (h : (k, v) ∈ l) : dget l k = some v := by
  induction l with
  | nil => cases h
  | cons hd t ih =>
    obtain ⟨a, b⟩ := hd
    simp only [List.map_cons, List.nodup_cons] at hn
    rcases List.mem_cons.mp h with heq | hmem
    · cases heq
      simp [dget]
    · have hak : a ≠ k := by
        intro hh
        subst hh
        exact hn.1 (List.mem_map.mpr ⟨(a, v), hmem, rfl⟩)
      simp [dget, hak, ih hn.2 hmem]

theorem mem_of_mem_derase {l : List (α × β)} {k : α} {p : α × β}
    (h : p ∈ derase l k) : p ∈ l := by
  induction l with
  | nil => cases h
  | cons hd t ih =>
    obtain ⟨a, b⟩ := hd
    by_cases hak : a = k
    · simp only [derase, if_pos hak] at h
      exact List.mem_cons_of_mem _ h
    · simp only [derase, if_neg hak] at h
      rcases List.mem_cons.mp h with heq | hmem
      · exact heq ▸ List.mem_cons_self _ _
      · exact List.mem_cons_of_mem _ (ih hmem)

theorem mem_derase_of_mem {l : List (α × β)} {k : α} {p : α × β}
    (h : p ∈ l) (hne : p.1 ≠ k) : p ∈ derase l k := by
  induction l with
  | nil => cases h
  | cons hd t ih =>
    obtain ⟨a, b⟩ := hd
    rcases List.mem_cons.mp h with heq | hmem
    · subst heq
      simp only [derase, if_neg hne]
      exact List.mem_cons_self _ _
    · by_cases hak : a = k
      · simpa [derase, hak] using hmem
      · simp only [derase, if_neg hak]
        exact List.mem_cons_of_mem _ (ih hmem)

theorem fst_ne_of_mem_derase {l : List (α × β)} {k : α} {p : α × β}
    (hn : (l.map Prod.fst).Nodup) (h : p ∈ derase l k) : p.1 ≠ k := by
  induction l with
  | nil => cases h
  | cons hd t ih =>
    obtain ⟨a, b⟩ := hd
    simp only [List.map_cons, List.nodup_cons] at hn
    by_cases hak : a = k
    · subst hak
      simp only [derase, if_pos rfl] at h
      intro hh
      exact hn.1 (List.mem_map.mpr ⟨p, h, hh⟩)
    · simp only [derase, if_neg hak] at h
      rcases List.mem_cons.mp h with heq | hmem
      · subst heq
        exact hak
      · exact ih hn.2 hmem

theorem mem_dinsert_elim {l : List (α × β)} {k : α} {v : β} {p : α × β}
    (h : p ∈ dinsert l k v) : p = (k, v) ∨ p ∈ l := by
  induction l with
  | nil => simpa [dinsert] using h
  | cons hd t ih =>
    obtain ⟨a, b⟩ := hd
    by_cases hak : a = k
    · simp only [dinsert, if_pos hak] at h
      rcases List.mem_cons.mp h with heq | hmem
      · exact Or.inl heq
      · exact Or.inr (List.mem_cons_of_mem _ hmem)
    · simp only [dinsert, if_neg hak] at h
      rcases List.mem_cons.mp h with heq | hmem
      · exact Or.inr (heq ▸ List.mem_cons_self _ _)
      · rcases ih hmem with h1 | h2
        · exact Or.inl h1
        · exact Or.inr (List.mem_cons_of_mem _ h2)

theorem mem_dinsert_of_mem {l : List (α × β)} {k : α} {v : β} {p : α × β}
    (h : p ∈ l) (hne : p.1 ≠ k) : p ∈ dinsert l k v := by
  induction l with
  | nil => cases h
  | cons hd t ih =>
    obtain ⟨a, b⟩ := hd
    rcases List.mem_cons.mp h with heq | hmem
    · subst heq
      simp only [dinsert, if_neg hne]
      exact List.mem_cons_self _ _
    · by_cases hak : a = k
      · simp only [dinsert, if_pos hak]
        exact List.mem_cons_of_mem _ hmem
      · simp only [dinsert, if_neg hak]
        exact List.mem_cons_of_mem _ (ih hmem)

theorem mem_dinsert_self (l : List (α × β)) (k : α) (v : β) :
    (k, v) ∈ dinsert l k v :=
  dget_mem (dget_dinsert_self l k v)

theorem nodup_keys_dinsert (l : List (α × β)) (k : α) (v : β)
    (h : (l.map Prod.fst).Nodup) : ((dinsert l k v).map Prod.fst).Nodup := by
  induction l with
  | nil => simp [dinsert]
  | cons hd t ih =>
    obtain ⟨a, b⟩ := hd
    simp only [List.map_cons, List.nodup_cons] at h
    by_cases hak : a = k
    · subst hak
      simpa [dinsert, List.nodup_cons] using h
    · simp only [dinsert, if_neg hak, List.map_cons, List.nodup_cons]
      refine ⟨?_, ih h.2⟩
      intro hmem
      rcases List.mem_map.mp hmem with ⟨p, hp, hfst⟩
      rcases mem_dinsert_elim hp with heq | hpl
      · subst heq
        exact hak hfst.symm
      · exact h.1 (List.mem_map.mpr ⟨p, hpl, hfst⟩)

theorem nodup_keys_derase (l : List (α × β)) (k : α)
    (h : (l.map Prod.fst).Nodup) : ((derase l k).map Prod.fst).Nodup := by
  induction l with
  | nil => simp [derase]
  | cons hd t ih =>
    obtain ⟨a, b⟩ := hd
    simp only [List.map_cons, List.nodup_cons] at h
    by_cases hak : a = k
    · simpa [derase, hak] using h.2
    · simp only [derase, if_neg hak, List.map_cons, List.nodup_cons]
      refine ⟨?_, ih h.2⟩
      intro hmem
      rcases List.mem_map.mp hmem with ⟨p, hp, hfst⟩
      exact h.1 (List.mem_map.mpr ⟨p, mem_of_mem_derase hp, hfst⟩)

theorem dinsert_eq_of_dget {l : List (α × β)} {k : α} {v : β}
    (h : dget l k = some v) : dinsert l k v = l := by
  induction l with
  | nil => exact Option.noConfusion h
  | cons hd t ih =>
    obtain ⟨a, b⟩ := hd
    by_cases hak : a = k
    · subst hak
      simp [dget] at h
      simp [dinsert, h]
    · simp only [dget, if_neg hak] at h
      simp [dinsert, hak, ih h]

theorem Bidict.wf_def (s : Bidict α β) :
    s.WF ↔ (s.fwd.map Prod.fst).Nodup ∧ (s.rev.map Prod.fst).Nodup ∧ s.Inv :=
  Iff.rfl

theorem Bidict.inv_def (s : Bidict α β) :
    s.Inv ↔ (∀ p ∈ s.fwd, dget s.rev p.2 = some p.1) ∧
      (∀ q ∈ s.rev, dget s.fwd q.2 = some q.1) :=
  Iff.rfl

theorem pair_evict_WF (s : Bidict α β) (k : α) (v0 : β)
    (h : s.WF) (hk : dget s.fwd k = some v0) :
    Bidict.WF ⟨derase s.fwd k, derase s.rev v0⟩ := by
  have hw := (Bidict.wf_def s).mp h
  have hinv := (Bidict.inv_def s).mp hw.2.2
  have hkrev : dget s.rev v0 = some k := hinv.1 (k, v0) (dget_mem hk)
  refine (Bidict.wf_def _).mpr
    ⟨nodup_keys_derase _ _ hw.1, nodup_keys_derase _ _ hw.2.1,
      (Bidict.inv_def _).mpr ⟨?_, ?_⟩⟩
  · intro p hp
    have hpl : p ∈ s.fwd := mem_of_mem_derase hp
    have hpk : p.1 ≠ k := fst_ne_of_mem_derase hw.1 hp
    have hpv : p.2 ≠ v0 := by
      intro hh
      have hgot := hinv.1 p hpl
      rw [hh, hkrev] at hgot
      exact hpk (Option.some.inj hgot).symm
    show dget (derase s.rev v0) p.2 = some p.1
    rw [dget_derase_ne _ hpv]
    exact hinv.1 p hpl
  · intro q hq
    have hql : q ∈ s.rev := mem_of_mem_derase hq
    have hqv : q.1 ≠ v0 := fst_ne_of_mem_derase hw.2.1 hq
    have hqk : q.2 ≠ k := by
      intro hh
      have hgot := hinv.2 q hql
      rw [hh, hk] at hgot
      exact hqv (Option.some.inj hgot).symm
    show dget (derase s.fwd k) q.2 = some q.1
    rw [dget_derase_ne _ hqk]
    exact hinv.2 q hql

theorem Bidict.swap_WF (s : Bidict α β) (h : s.WF) : s.swap.WF := by
  have hw := (Bidict.wf_def s).mp h
  have hinv := (Bidict.inv_def s).mp hw.2.2
  exact (Bidict.wf_def _).mpr
    ⟨hw.2.1, hw.1, (Bidict.inv_def _).mpr ⟨hinv.2, hinv.1⟩⟩

theorem pair_evict_rev_WF (s : Bidict α β) (v : β) (k0 : α)
    (h : s.WF) (hv : dget s.rev v = some k0) :
    Bidict.WF ⟨derase s.fwd k0, derase s.rev v⟩ := by
  have hs := pair_evict_WF s.swap v k0 (Bidict.swap_WF s h) hv
  exact Bidict.swap_WF _ hs


theorem evictKey_none (s : Bidict α β) (k : α) (v : β)
    (h0 : dget s.fwd k = none) : s.evictKey k v = s := by
  unfold Bidict.evictKey
  rw [h0]

theorem evictKey_same (s : Bidict α β) (k : α) (v : β)
    (h0 : dget s.fwd k = some v) : s.evictKey k v = s := by
  unfold Bidict.evictKey
  rw [h0]
  show (if v = v then s else (⟨derase s.fwd k, derase s.rev v⟩ : Bidict α β)) = s
  rw [if_pos rfl]

theorem evictKey_diff (s : Bidict α β) (k : α) (v v0 : β)
    (h0 : dget s.fwd k = some v0) (hne : v0 ≠ v) :
    s.evictKey k v = ⟨derase s.fwd k, derase s.rev v0⟩ := by
  unfold Bidict.evictKey
  rw [h0]
  show (if v0 = v then s else (⟨derase s.fwd k, derase s.rev v0⟩ : Bidict α β)) = _
  rw [if_neg hne]

theorem evictVal_none (s : Bidict α β) (v : β) (k : α)
    (h0 : dget s.rev v = none) : s.evictVal v k = s := by
  unfold Bidict.evictVal
  rw [h0]

theorem evictVal_same (s : Bidict α β) (v : β) (k : α)
    (h0 : dget s.rev v = some k) : s.evictVal v k = s := by
  unfold Bidict.evictVal
  rw [h0]
  show (if k = k then s else (⟨derase s.fwd k, derase s.rev v⟩ : Bidict α β)) = s
  rw [if_pos rfl]

theorem evictVal_diff (s : Bidict α β) (v : β) (k k0 : α)
    (h0 : dget s.rev v = some k0) (hne : k0 ≠ k) :
    s.evictVal v k = ⟨derase s.fwd k0, derase s.rev v⟩ := by
  unfold Bidict.evictVal
  rw [h0]
  show (if k0 = k then s else (⟨derase s.fwd k0, derase s.rev v⟩ : Bidict α β)) = _
  rw [if_neg hne]

theorem delitem_eq_none (s : Bidict α β) (k : α)
    (h0 : dget s.fwd k = none) : s.delitem k = none := by
  unfold Bidict.delitem
  rw [h0]

theorem delitem_eq_some (s : Bidict α β) (k : α) (v : β)
    (h0 : dget s.fwd k = some v) :
    s.delitem k = some ⟨derase s.fwd k, derase s.rev v⟩ := by
  unfold Bidict.delitem
  rw [h0]

theorem delitemRev_eq_none (s : Bidict α β) (v : β)
    (h0 : dget s.rev v = none) : s.delitemRev v = none := by
  unfold Bidict.delitemRev
  rw [h0]

theorem delitemRev_eq_some (s : Bidict α β) (v : β) (k : α)
    (h0 : dget s.rev v = some k) :
    s.delitemRev v = some ⟨derase s.fwd k, derase s.rev v⟩ := by
  unfold Bidict.delitemRev
  rw [h0]

theorem evictKey_WF (s : Bidict α β) (k : α) (v : β) (h : s.WF) :
    (s.evictKey k v).WF := by
  cases h0 : dget s.fwd k with
  | none => rw [evictKey_none s k v h0]; exact h
  | some v0 =>
    by_cases hv : v0 = v
    · subst hv
      rw [evictKey_same s k v0 h0]
      exact h
    · rw [evictKey_diff s k v v0 h0 hv]
      exact pair_evict_WF s k v0 h h0

theorem evictVal_WF (s : Bidict α β) (v : β) (k : α) (h : s.WF) :
    (s.evictVal v k).WF := by
  cases h0 : dget s.rev v with
  | none => rw [evictVal_none s v k h0]; exact h
  | some k0 =>
    by_cases hk : k0 = k
    · subst hk
      rw [evictVal_same s v k0 h0]
      exact h
    · rw [evictVal_diff s v k k0 h0 hk]
      exact pair_evict_rev_WF s v k0 h h0

theorem evictKey_rev_v (s : Bidict α β) (k : α) (v : β) :
    dget (s.evictKey k v).rev v = dget s.rev v := by
  cases h0 : dget s.fwd k with
  | none => rw [evictKey_none s k v h0]
  | some v0 =>
    by_cases hv : v0 = v
    · subst hv
      rw [evictKey_same s k v0 h0]
    · rw [evictKey_diff s k v v0 h0 hv]
      exact dget_derase_ne _ (fun hh => hv hh.symm)

theorem evictVal_fwd_k (s : Bidict α β) (v : β) (k : α) :
    dget (s.evictVal v k).fwd k = dget s.fwd k := by
  cases h0 : dget s.rev v with
  | none => rw [evictVal_none s v k h0]
  | some k0 =>
    by_cases hk : k0 = k
    · subst hk
      rw [evictVal_same s v k0 h0]
    · rw [evictVal_diff s v k k0 h0 hk]
      exact dget_derase_ne _ (fun hh => hk hh.symm)

theorem evictKey_fwd_k (s : Bidict α β) (k : α) (v : β) (h : s.WF) :
    dget (s.evictKey k v).fwd k = none ∨ dget (s.evictKey k v).fwd k = some v := by
  cases h0 : dget s.fwd k with
  | none => rw [evictKey_none s k v h0]; exact Or.inl h0
  | some v0 =>
    by_cases hv : v0 = v
    · subst hv
      rw [evictKey_same s k v0 h0]
      exact Or.inr h0
    · rw [evictKey_diff s k v v0 h0 hv]
      exact Or.inl (dget_derase_self _ _ ((Bidict.wf_def s).mp h).1)

theorem evictVal_rev_v (s : Bidict α β) (v : β) (k : α) (h : s.WF) :
    dget (s.evictVal v k).rev v = none ∨ dget (s.evictVal v k).rev v = some k := by
  cases h0 : dget s.rev v with
  | none => rw [evictVal_none s v k h0]; exact Or.inl h0
  | some k0 =>
    by_cases hk : k0 = k
    · subst hk
      rw [evictVal_same s v k0 h0]
      exact Or.inr h0
    · rw [evictVal_diff s v k k0 h0 hk]
      exact Or.inl (dget_derase_self _ _ ((Bidict.wf_def s).mp h).2.1)

theorem evictKey_fwd_subset (s : Bidict α β) (k : α) (v : β) {p : α × β}
    (hp : p ∈ (s.evictKey k v).fwd) : p ∈ s.fwd := by
  cases h0 : dget s.fwd k with
  | none => rw [evictKey_none s k v h0] at hp; exact hp
  | some v0 =>
    by_cases hv : v0 = v
    · subst hv
      rw [evictKey_same s k v0 h0] at hp
      exact hp
    · rw [evictKey_diff s k v v0 h0 hv] at hp
      exact mem_of_mem_derase hp

theorem evictKey_rev_subset (s : Bidict α β) (k : α) (v : β) {q : β × α}
    (hq : q ∈ (s.evictKey k v).rev) : q ∈ s.rev := by
  cases h0 : dget s.fwd k with
  | none => rw [evictKey_none s k v h0] at hq; exact hq
  | some v0 =>
    by_cases hv : v0 = v
    · subst hv
      rw [evictKey_same s k v0 h0] at hq
      exact hq
    · rw [evictKey_diff s k v v0 h0 hv] at hq
      exact mem_of_mem_derase hq

theorem evictVal_fwd_subset (s : Bidict α β) (v : β) (k : α) {p : α × β}
    (hp : p ∈ (s.evictVal v k).fwd) : p ∈ s.fwd := by
  cases h0 : dget s.rev v with
  | none => rw [evictVal_none s v k h0] at hp; exact hp
  | some k0 =>
    by_cases hk : k0 = k
    · subst hk
      rw [evictVal_same s v k0 h0] at hp
      exact hp
    · rw [evictVal_diff s v k k0 h0 hk] at hp
      exact mem_of_mem_derase hp

theorem evictVal_rev_subset (s : Bidict α β) (v : β) (k : α) {q : β × α}
    (hq : q ∈ (s.evictVal v k).rev) : q ∈ s.rev := by
  cases h0 : dget s.rev v with
  | none => rw [evictVal_none s v k h0] at hq; exact hq
  | some k0 =>
    by_cases hk : k0 = k
    · subst hk
      rw [evictVal_same s v k0 h0] at hq
      exact hq
    · rw [evictVal_diff s v k k0 h0 hk] at hq
      exact mem_of_mem_derase hq

theorem evictKey_fwd_survive (s : Bidict α β) (k : α) (v : β) {p : α × β}
    (hp : p ∈ s.fwd) (hne : p.1 ≠ k) : p ∈ (s.evictKey k v).fwd := by
  cases h0 : dget s.fwd k with
  | none => rw [evictKey_none s k v h0]; exact hp
  | some v0 =>
    by_cases hv : v0 = v
    · subst hv
      rw [evictKey_same s k v0 h0]
      exact hp
    · rw [evictKey_diff s k v v0 h0 hv]
      exact mem_derase_of_mem hp hne

theorem evictVal_rev_survive (s : Bidict α β) (v : β) (k : α) {q : β × α}
    (hq : q ∈ s.rev) (hne : q.1 ≠ v) : q ∈ (s.evictVal v k).rev := by
  cases h0 : dget s.rev v with
  | none => rw [evictVal_none s v k h0]; exact hq
  | some k0 =>
    by_cases hk : k0 = k
    · subst hk
      rw [evictVal_same s v k0 h0]
      exact hq
    · rw [evictVal_diff s v k k0 h0 hk]
      exact mem_derase_of_mem hq hne

theorem evictKey_rev_survive (s : Bidict α β) (k : α) (v : β) {q : β × α}
    (h : s.WF) (hq : q ∈ s.rev) (hqv : q.1 ≠ v) (hqk : q.2 ≠ k) :
    q ∈ (s.evictKey k v).rev := by
  have hw := (Bidict.wf_def s).mp h
  have hinv := (Bidict.inv_def s).mp hw.2.2
  cases h0 : dget s.fwd k with
  | none => rw [evictKey_none s k v h0]; exact hq
  | some v0 =>
    by_cases hv : v0 = v
    · subst hv
      rw [evictKey_same s k v0 h0]
      exact hq
    · rw [evictKey_diff s k v v0 h0 hv]
      refine mem_derase_of_mem hq ?_
      intro hh
      have hkrev : dget s.rev v0 = some k := hinv.1 (k, v0) (dget_mem h0)
      have hqget : dget s.rev q.1 = some q.2 := mem_dget hw.2.1 hq
      rw [hh, hkrev] at hqget
      exact hqk (Option.some.inj hqget).symm

theorem evictVal_fwd_survive (s : Bidict α β) (v : β) (k : α) {p : α × β}
    (h : s.WF) (hp : p ∈ s.fwd) (hpk : p.1 ≠ k) (hpv : p.2 ≠ v) :
    p ∈ (s.evictVal v k).fwd := by
  have hw := (Bidict.wf_def s).mp h
  have hinv := (Bidict.inv_def s).mp hw.2.2
  cases h0 : dget s.rev v with
  | none => rw [evictVal_none s v k h0]; exact hp
  | some k0 =>
    by_cases hk : k0 = k
    · subst hk
      rw [evictVal_same s v k0 h0]
      exact hp
    · rw [evictVal_diff s v k k0 h0 hk]
      refine mem_derase_of_mem hp ?_
      intro hh
      have hvfwd : dget s.fwd k0 = some v := hinv.2 (v, k0) (dget_mem h0)
      have hpget : dget s.fwd p.1 = some p.2 := mem_dget hw.1 hp
      rw [hh, hvfwd] at hpget
      exact hpv (Option.some.inj hpget).symm

theorem setitem_fwd (s : Bidict α β) (k : α) (v : β) :
    (s.setitem k v).fwd = dinsert ((s.evictKey k v).evictVal v k).fwd k v :=
  rfl

theorem setitem_rev (s : Bidict α β) (k : α) (v : β) :
    (s.setitem k v).rev = dinsert ((s.evictKey k v).evictVal v k).rev v k :=
  rfl

theorem setitem_WF (s : Bidict α β) (k : α) (v : β) (h : s.WF) :
    (s.setitem k v).WF := by
  have h1 : (s.evictKey k v).WF := evictKey_WF s k v h
  have h2 : ((s.evictKey k v).evictVal v k).WF := evictVal_WF _ v k h1
  have hfk : dget ((s.evictKey k v).evictVal v k).fwd k = none ∨
      dget ((s.evictKey k v).evictVal v k).fwd k = some v := by
    rw [evictVal_fwd_k]
    exact evictKey_fwd_k s k v h
  have hrv : dget ((s.evictKey k v).evictVal v k).rev v = none ∨
      dget ((s.evictKey k v).evictVal v k).rev v = some k :=
    evictVal_rev_v _ v k h1
  have hw2 := (Bidict.wf_def _).mp h2
  have hinv2 := (Bidict.inv_def _).mp hw2.2.2
  rw [Bidict.wf_def, setitem_fwd, setitem_rev]
  refine ⟨nodup_keys_dinsert _ k v hw2.1, nodup_keys_dinsert _ v k hw2.2.1, ?_⟩
  rw [Bidict.inv_def]
  constructor
  · intro p hp
    rw [setitem_fwd] at hp
    rw [setitem_rev]
    rcases mem_dinsert_elim hp with rfl | hpT
    · exact dget_dinsert_self _ v k
    · by_cases hpv : p.2 = v
      · have hgot := hinv2.1 p hpT
        rw [hpv] at hgot
        rcases hrv with hno | hsome
        · rw [hno] at hgot
          exact Option.noConfusion hgot
        · rw [hsome] at hgot
          have hp1 : p.1 = k := (Option.some.inj hgot).symm
          rw [hpv, hp1]
          exact dget_dinsert_self _ v k
      · rw [dget_dinsert_ne _ k hpv]
        exact hinv2.1 p hpT
  · intro q hq
    rw [setitem_rev] at hq
    rw [setitem_fwd]
    rcases mem_dinsert_elim hq with rfl | hqT
    · exact dget_dinsert_self _ k v
    · by_cases hqk : q.2 = k
      · have hgot := hinv2.2 q hqT
        rw [hqk] at hgot
        rcases hfk with hno | hsome
        · rw [hno] at hgot
          exact Option.noConfusion hgot
        · rw [hsome] at hgot
          have hq1 : q.1 = v := (Option.some.inj hgot).symm
          rw [hqk, hq1]
          exact dget_dinsert_self _ k v
      · rw [dget_dinsert_ne _ v hqk]
        exact hinv2.2 q hqT

theorem delitem_WF (s : Bidict α β) (k : α) (t : Bidict α β) (h : s.WF)
    (hdel : s.delitem k = some t) : t.WF := by
  cases h0 : dget s.fwd k with
  | none =>
    rw [delitem_eq_none s k h0] at hdel
    exact Option.noConfusion hdel
  | some v =>
    rw [delitem_eq_some s k v h0] at hdel
    have ht : t = ⟨derase s.fwd k, derase s.rev v⟩ := (Option.some.inj hdel).symm
    rw [ht]
    exact pair_evict_WF s k v h h0

theorem delitemRev_WF (s : Bidict α β) (v : β) (t : Bidict α β) (h : s.WF)
    (hdel : s.delitemRev v = some t) : t.WF := by
  cases h0 : dget s.rev v with
  | none =>
    rw [delitemRev_eq_none s v h0] at hdel
    exact Option.noConfusion hdel
  | some k =>
    rw [delitemRev_eq_some s v k h0] at hdel
    have ht : t = ⟨derase s.fwd k, derase s.rev v⟩ := (Option.some.inj hdel).symm
    rw [ht]
    exact pair_evict_rev_WF s v k h h0

theorem update_WF (l : List (α × β)) :
    ∀ s : Bidict α β, s.WF → (s.update l).WF := by
  induction l with
  | nil => intro s h; exact h
  | cons hd rest ih =>
    obtain ⟨k, v⟩ := hd
    intro s h
    exact ih _ (setitem_WF s k v h)

theorem empty_WF : (Bidict.empty : Bidict α β).WF := by
  refine (Bidict.wf_def _).mpr ⟨?_, ?_, (Bidict.inv_def _).mpr ⟨?_, ?_⟩⟩ <;>
    simp [Bidict.empty]

theorem WF_length (s : Bidict α β) (h : s.WF) :
    s.fwd.length = s.rev.length := by
  have hw := (Bidict.wf_def s).mp h
  have hinv := (Bidict.inv_def s).mp hw.2.2
  have hnf : s.fwd.Nodup := hw.1.of_map
  have hnr : s.rev.Nodup := hw.2.1.of_map
  have hsub1 : s.fwd.map Prod.swap ⊆ s.rev := by
    intro q hq
    rcases List.mem_map.mp hq with ⟨p, hp, rfl⟩
    exact dget_mem (hinv.1 p hp)
  have hsub2 : s.rev.map Prod.swap ⊆ s.fwd := by
    intro p hp
    rcases List.mem_map.mp hp with ⟨q, hq, rfl⟩
    exact dget_mem (hinv.2 q hq)
  have h1 : (s.fwd.map Prod.swap).Nodup := hnf.map Prod.swap_injective
  have h2 : (s.rev.map Prod.swap).Nodup := hnr.map Prod.swap_injective
  have le1 : s.fwd.length ≤ s.rev.length := by
    have := (h1.subperm hsub1).length_le
    simpa using this
  have le2 : s.rev.length ≤ s.fwd.length := by
    have := (h2.subperm hsub2).length_le
    simpa using this
  omega

theorem applySR_WF (s : Bidict α β) (o : SROp α β) (h : s.WF) :
    (s.applySR o).WF := by
  cases o with
  | set k v => exact setitem_WF s k v h
  | remove k =>
    show ((s.delitem k).getD s).WF
    cases hd : s.delitem k with
    | none => simpa using h
    | some t => simpa using delitem_WF s k t h hd

theorem applyM_WF (s : Bidict α β) (o : MOp α β) (h : s.WF) :
    (s.applyM o).WF := by
  cases o with
  | set k v => exact setitem_WF s k v h
  | remove k =>
    show ((s.delitem k).getD s).WF
    cases hd : s.delitem k with
    | none => simpa using h
    | some t => simpa using delitem_WF s k t h hd
  | removeByValue v =>
    show ((s.delitemRev v).getD s).WF
    cases hd : s.delitemRev v with
    | none => simpa using h
    | some t => simpa using delitemRev_WF s v t h hd
  | updateMany l => exact update_WF l s h

theorem foldlSR_WF (ops : List (SROp α β)) :
    ∀ s : Bidict α β, s.WF → (ops.foldl Bidict.applySR s).WF := by
  induction ops with
  | nil => intro s h; exact h
  | cons o rest ih =>
    intro s h
    exact ih _ (applySR_WF s o h)

theorem runSR_WF (ops : List (SROp α β)) : (Bidict.runSR ops).WF :=
  foldlSR_WF ops _ empty_WF

theorem foldlM_WF (ops : List (MOp α β)) :
    ∀ s : Bidict α β, s.WF → (ops.foldl Bidict.applyM s).WF := by
  induction ops with
  | nil => intro s h; exact h
  | cons o rest ih =>
    intro s h
    exact ih _ (applyM_WF s o h)

theorem runM_WF (s : Bidict α β) (ops : List (MOp α β)) (h : s.WF) :
    (s.runM ops).WF :=
  foldlM_WF ops s h

theorem update_eq_foldl (l : List (α × β)) :
    ∀ s : Bidict α β, s.update l = l.foldl (fun t p => t.setitem p.1 p.2) s := by
  induction l with
  | nil => intro s; rfl
  | cons hd rest ih =>
    obtain ⟨k, v⟩ := hd
    intro s
    show (s.setitem k v).update rest = _
    rw [ih]
    rfl

theorem swap_evictKey (s : Bidict α β) (v : β) (k : α) :
    s.swap.evictKey v k = (s.evictVal v k).swap := by
  cases h0 : dget s.rev v with
  | none =>
    rw [evictKey_none s.swap v k h0, evictVal_none s v k h0]
  | some k0 =>
    by_cases hk : k0 = k
    · subst hk
      rw [evictKey_same s.swap v k0 h0, evictVal_same s v k0 h0]
    · rw [evictKey_diff s.swap v k k0 h0 hk, evictVal_diff s v k k0 h0 hk]
      rfl

theorem swap_evictVal (s : Bidict α β) (k : α) (v : β) :
    s.swap.evictVal k v = (s.evictKey k v).swap := by
  cases h0 : dget s.fwd k with
  | none =>
    rw [evictVal_none s.swap k v h0, evictKey_none s k v h0]
  | some v0 =>
    by_cases hv : v0 = v
    · subst hv
      rw [evictVal_same s.swap k v0 h0, evictKey_same s k v0 h0]
    · rw [evictVal_diff s.swap k v v0 h0 hv, evictKey_diff s k v v0 h0 hv]
      rfl

theorem setitemRev_eq_swap (s : Bidict α β) (v : β) (k : α) :
    s.setitemRev v k = (s.swap.setitem v k).swap := by
  show (⟨dinsert ((s.evictVal v k).evictKey k v).fwd k v,
      dinsert ((s.evictVal v k).evictKey k v).rev v k⟩ : Bidict α β) =
    (⟨(s.swap.setitem v k).rev, (s.swap.setitem v k).fwd⟩ : Bidict α β)
  rw [setitem_rev, setitem_fwd, swap_evictKey, swap_evictVal]
  rfl

theorem pydictOfRaw_malformed (l : List (List PyV)) :
    ∀ acc, (∃ e ∈ l, e.length ≠ 2) → pydictOfRaw acc l = none := by
  induction l with
  | nil =>
    intro acc h
    rcases h with ⟨e, he, _⟩
    cases he
  | cons e rest ih =>
    intro acc h
    match e with
    | [] => rfl
    | [x] => rfl
    | x :: y :: z :: tl => rfl
    | [x, y] =>
      rcases h with ⟨e', he', hlen⟩
      rcases List.mem_cons.mp he' with rfl | hmem
      · simp at hlen
      · exact ih _ ⟨e', hmem, hlen⟩

theorem initPos_seq_malformed (l : List (List PyV))
    (h : pydictOfRaw [] l = none) :
    initPos [PosArg.pseq l] = .error .invalidArgument := by
  show (match pydictOfRaw [] l with
    | some d => Except.ok (Bidict.empty.update d, "reverse", "direct")
    | none => Except.error InitError.invalidArgument) =
      Except.error InitError.invalidArgument
  rw [h]

theorem bidictInit_error (pos : List PosArg) (kw : List (String × KwVal))
    (e : InitError) (h : initPos pos = .error e) :
    bidictInit pos kw = .error e := by
  unfold bidictInit
  rw [h]

/-- C1: Bijection invariant — after every finite sequence of `set`/`remove`
operations starting from the empty map, `reverse[forward[k]] == k` holds
for every key `k` of the forward map and `forward[reverse[v]] == v` holds
for every value `v` of the reverse map. -/
theorem claim_bijection_invariant (ops : List (SROp α β)) :
    (∀ k v, dget (Bidict.runSR ops).fwd k = some v →
      dget (Bidict.runSR ops).rev v = some k) ∧
    (∀ v k, dget (Bidict.runSR ops).rev v = some k →
      dget (Bidict.runSR ops).fwd k = some v) := by
  have hwf := runSR_WF ops
  have hinv := (Bidict.inv_def _).mp ((Bidict.wf_def _).mp hwf).2.2
  exact ⟨fun k v hk => hinv.1 (k, v) (dget_mem hk),
    fun v k hv => hinv.2 (v, k) (dget_mem hv)⟩

/-- C2: Postcondition of `set(k, v)` from a well-formed state: the new pair
is present in both directions; every other surviving entry avoids `k` and
`v` and already existed before the call; every removed entry was the old
pair of `k` or the old pair of `v`; the operation is total, so an
overwrite never signals an error. -/
theorem claim_set_postcondition (s : Bidict α β) (k : α) (v : β) (h : s.WF) :
    dget (s.setitem k v).fwd k = some v ∧
    dget (s.setitem k v).rev v = some k ∧
    (∀ p ∈ (s.setitem k v).fwd, p.1 ≠ k → p.2 ≠ v ∧ p ∈ s.fwd) ∧
    (∀ q ∈ (s.setitem k v).rev, q.1 ≠ v → q.2 ≠ k ∧ q ∈ s.rev) ∧
    (∀ p ∈ s.fwd, p ∉ (s.setitem k v).fwd → p.1 = k ∨ p.2 = v) ∧
    (∀ q ∈ s.rev, q ∉ (s.setitem k v).rev → q.1 = v ∨ q.2 = k) := by
  have h1 := evictKey_WF s k v h
  have h2 := evictVal_WF _ v k h1
  have hfk : dget ((s.evictKey k v).evictVal v k).fwd k = none ∨
      dget ((s.evictKey k v).evictVal v k).fwd k = some v := by
    rw [evictVal_fwd_k]
    exact evictKey_fwd_k s k v h
  have hrv : dget ((s.evictKey k v).evictVal v k).rev v = none ∨
      dget ((s.evictKey k v).evictVal v k).rev v = some k :=
    evictVal_rev_v _ v k h1
  have hinv2 := (Bidict.inv_def _).mp ((Bidict.wf_def _).mp h2).2.2
  refine ⟨?_, ?_, ?_, ?_, ?_, ?_⟩
  · rw [setitem_fwd]
    exact dget_dinsert_self _ k v
  · rw [setitem_rev]
    exact dget_dinsert_self _ v k
  · intro p hp hpk
    rw [setitem_fwd] at hp
    rcases mem_dinsert_elim hp with rfl | hpT
    · exact absurd rfl hpk
    · refine ⟨?_, evictKey_fwd_subset s k v (evictVal_fwd_subset _ v k hpT)⟩
      intro hpv
      have hgot := hinv2.1 p hpT
      rw [hpv] at hgot
      rcases hrv with hno | hsome
      · rw [hno] at hgot
        exact Option.noConfusion hgot
      · rw [hsome] at hgot
        exact hpk (Option.some.inj hgot).symm
  · intro q hq hqv
    rw [setitem_rev] at hq
    rcases mem_dinsert_elim hq with rfl | hqT
    · exact absurd rfl hqv
    · refine ⟨?_, evictKey_rev_subset s k v (evictVal_rev_subset _ v k hqT)⟩
      intro hqk
      have hgot := hinv2.2 q hqT
      rw [hqk] at hgot
      rcases hfk with hno | hsome
      · rw [hno] at hgot
        exact Option.noConfusion hgot
      · rw [hsome] at hgot
        exact hqv (Option.some.inj hgot).symm
  · intro p hps hnp
    by_cases hpk : p.1 = k
    · exact Or.inl hpk
    · by_cases hpv : p.2 = v
      · exact Or.inr hpv
      · exfalso
        apply hnp
        rw [setitem_fwd]
        exact mem_dinsert_of_mem
          (evictVal_fwd_survive _ v k h1
            (evictKey_fwd_survive s k v hps hpk) hpk hpv) hpk
  · intro q hqs hnq
    by_cases hqv : q.1 = v
    · exact Or.inl hqv
    · by_cases hqk : q.2 = k
      · exact Or.inr hqk
      · exfalso
        apply hnq
        rw [setitem_rev]
        exact mem_dinsert_of_mem
          (evictVal_rev_survive _ v k
            (evictKey_rev_survive s k v h hqs hqv hqk) hqv) hqv

/-- Witness for C2, instantiated at the empty state. -/
theorem claim_set_postcondition_witness :
    (Bidict.empty : Bidict Nat Nat).WF ∧
    dget ((Bidict.empty : Bidict Nat Nat).setitem 0 1).fwd 0 = some 1 :=
  ⟨by decide, (claim_set_postcondition Bidict.empty 0 1 (by decide)).1⟩

/-- C3: Eviction removes the whole conflicting pair — after `set(k1, v1)`
then `set(k2, v1)` with `k1 ≠ k2`, the key `k1` is entirely absent from
the forward map (not merely detached from `v1`) and `v1` maps only to
`k2` in the reverse map. -/
theorem claim_eviction_whole_pair (s : Bidict α β) (k1 k2 : α) (v1 : β)
    (h : s.WF) (hne : k1 ≠ k2) :
    dget ((s.setitem k1 v1).setitem k2 v1).fwd k1 = none ∧
    (∀ v', (k1, v') ∉ ((s.setitem k1 v1).setitem k2 v1).fwd) ∧
    dget ((s.setitem k1 v1).setitem k2 v1).rev v1 = some k2 ∧
    (∀ p ∈ ((s.setitem k1 v1).setitem k2 v1).fwd, p.2 = v1 → p.1 = k2) := by
  have ht1 : (s.setitem k1 v1).WF := setitem_WF s k1 v1 h
  have ht1r : dget (s.setitem k1 v1).rev v1 = some k1 := by
    rw [setitem_rev]
    exact dget_dinsert_self _ v1 k1
  have hS1wf : ((s.setitem k1 v1).evictKey k2 v1).WF := evictKey_WF _ k2 v1 ht1
  have hS1rv : dget ((s.setitem k1 v1).evictKey k2 v1).rev v1 = some k1 := by
    rw [evictKey_rev_v, ht1r]
  have hS2eq : ((s.setitem k1 v1).evictKey k2 v1).evictVal v1 k2 =
      ⟨derase ((s.setitem k1 v1).evictKey k2 v1).fwd k1,
       derase ((s.setitem k1 v1).evictKey k2 v1).rev v1⟩ :=
    evictVal_diff _ v1 k2 k1 hS1rv hne
  have hS1nf := ((Bidict.wf_def _).mp hS1wf).1
  have hS1nr := ((Bidict.wf_def _).mp hS1wf).2.1
  have hS2wf : (((s.setitem k1 v1).evictKey k2 v1).evictVal v1 k2).WF :=
    evictVal_WF _ v1 k2 hS1wf
  have hinv2 := (Bidict.inv_def _).mp ((Bidict.wf_def _).mp hS2wf).2.2
  have hS2revnone :
      dget (((s.setitem k1 v1).evictKey k2 v1).evictVal v1 k2).rev v1 = none := by
    rw [hS2eq]
    exact dget_derase_self _ _ hS1nr
  refine ⟨?_, ?_, ?_, ?_⟩
  · rw [setitem_fwd, dget_dinsert_ne _ v1 hne, hS2eq]
    exact dget_derase_self _ _ hS1nf
  · intro v' hv'
    rw [setitem_fwd] at hv'
    rcases mem_dinsert_elim hv' with heq | hmem
    · exact hne (congrArg Prod.fst heq)
    · rw [hS2eq] at hmem
      exact fst_ne_of_mem_derase hS1nf hmem rfl
  · rw [setitem_rev]
    exact dget_dinsert_self _ v1 k2
  · intro p hp hpv
    rw [setitem_fwd] at hp
    rcases mem_dinsert_elim hp with rfl | hmem
    · rfl
    · exfalso
      have hgot := hinv2.1 p hmem
      rw [hpv, hS2revnone] at hgot
      exact Option.noConfusion hgot

/-- Witness for C3 at a concrete pair of conflicting insertions. -/
theorem claim_eviction_whole_pair_witness :
    dget (((Bidict.empty : Bidict Nat Nat).setitem 0 5).setitem 1 5).fwd 0 =
      none :=
  (claim_eviction_whole_pair Bidict.empty 0 1 5 (by decide) (by decide)).1

/-- C4: Cardinality invariant — after construction from a seed and any
script of `set`, `update`, `remove` and `remove_by_value` operations, the
forward and the reverse map hold the same number of entries. -/
theorem claim_cardinality (seed : List (α × β)) (ops : List (MOp α β)) :
    ((Bidict.empty.update seed).runM ops).fwd.length =
      ((Bidict.empty.update seed).runM ops).rev.length :=
  WF_length _ (runM_WF _ ops (update_WF seed _ empty_WF))

/-- C5: `remove(k)` — an absent key fails (`KeyError`) with no mutation
performed; a present key has its pair deleted from both maps; and after
`set(k, v)` a `remove(k)` succeeds and leaves `k` and `v` absent from both
directions, so `get_by_key(k)` and `get_by_value(v)` both fail. -/
theorem claim_remove_spec (s : Bidict α β) (k : α) (v : β) (h : s.WF) :
    (dget s.fwd k = none → s.delitem k = none) ∧
    (∀ v0, dget s.fwd k = some v0 →
      s.delitem k = some ⟨derase s.fwd k, derase s.rev v0⟩ ∧
      dget (derase s.fwd k) k = none ∧ dget (derase s.rev v0) v0 = none) ∧
    ((s.setitem k v).delitem k =
        some ⟨derase (s.setitem k v).fwd k, derase (s.setitem k v).rev v⟩ ∧
      dget (derase (s.setitem k v).fwd k) k = none ∧
      dget (derase (s.setitem k v).rev v) v = none ∧
      (∀ p ∈ derase (s.setitem k v).fwd k, p.2 ≠ v) ∧
      (∀ q ∈ derase (s.setitem k v).rev v, q.2 ≠ k)) := by
  have hw := (Bidict.wf_def s).mp h
  refine ⟨fun h0 => delitem_eq_none s k h0, ?_, ?_⟩
  · intro v0 h0
    exact ⟨delitem_eq_some s k v0 h0,
      dget_derase_self _ _ hw.1,
      dget_derase_self _ _ hw.2.1⟩
  · have ht1 : (s.setitem k v).WF := setitem_WF s k v h
    have hw1 := (Bidict.wf_def _).mp ht1
    have hinv1 := (Bidict.inv_def _).mp hw1.2.2
    have hf : dget (s.setitem k v).fwd k = some v := by
      rw [setitem_fwd]
      exact dget_dinsert_self _ k v
    have hr : dget (s.setitem k v).rev v = some k := by
      rw [setitem_rev]
      exact dget_dinsert_self _ v k
    refine ⟨delitem_eq_some _ k v hf,
      dget_derase_self _ _ hw1.1,
      dget_derase_self _ _ hw1.2.1, ?_, ?_⟩
    · intro p hp hpv
      have hpk : p.1 ≠ k := fst_ne_of_mem_derase hw1.1 hp
      have hgot := hinv1.1 p (mem_of_mem_derase hp)
      rw [hpv, hr] at hgot
      exact hpk (Option.some.inj hgot).symm
    · intro q hq hqk
      have hqv : q.1 ≠ v := fst_ne_of_mem_derase hw1.2.1 hq
      have hgot := hinv1.2 q (mem_of_mem_derase hq)
      rw [hqk, hf] at hgot
      exact hqv (Option.some.inj hgot).symm

/-- Witness for C5, deleting a freshly inserted pair from the empty map. -/
theorem claim_remove_spec_witness :
    ((Bidict.empty : Bidict Nat Nat).setitem 0 1).delitem 0 =
      some ⟨derase ((Bidict.empty : Bidict Nat Nat).setitem 0 1).fwd 0,
            derase ((Bidict.empty : Bidict Nat Nat).setitem 0 1).rev 1⟩ :=
  (claim_remove_spec Bidict.empty 0 1 (by decide)).2.2.1

/-- C6: Round trip — from any starting state, after `set(k, v)` the lookup
`get_by_key(k)` returns `v` and `get_by_value(v)` returns `k`. -/
theorem claim_roundtrip (s : Bidict α β) (k : α) (v : β) :
    dget (s.setitem k v).fwd k = some v ∧
    dget (s.setitem k v).rev v = some k := by
  rw [setitem_fwd, setitem_rev]
  exact ⟨dget_dinsert_self _ k v, dget_dinsert_self _ v k⟩

/-- C7: Idempotence of `set` — repeating `set(k, v)` leaves the structure
equal, entries and iteration order included; and from a well-formed state
where `forward[k]` is already `v` the call performs no eviction, only the
two rewriting raw writes. -/
theorem claim_set_idempotent (s : Bidict α β) (k : α) (v : β) (h : s.WF) :
    (s.setitem k v).setitem k v = s.setitem k v ∧
    (dget s.fwd k = some v →
      s.setitem k v = ⟨dinsert s.fwd k v, dinsert s.rev v k⟩) := by
  constructor
  · have hf : dget (s.setitem k v).fwd k = some v := by
      rw [setitem_fwd]
      exact dget_dinsert_self _ k v
    have hr : dget (s.setitem k v).rev v = some k := by
      rw [setitem_rev]
      exact dget_dinsert_self _ v k
    have e1 : (s.setitem k v).evictKey k v = s.setitem k v :=
      evictKey_same _ k v hf
    have e2 : (s.setitem k v).evictVal v k = s.setitem k v :=
      evictVal_same _ v k hr
    show (⟨dinsert (((s.setitem k v).evictKey k v).evictVal v k).fwd k v,
        dinsert (((s.setitem k v).evictKey k v).evictVal v k).rev v k⟩ :
          Bidict α β) = s.setitem k v
    rw [e1, e2, dinsert_eq_of_dget hf, dinsert_eq_of_dget hr]
  · intro hkv
    have hinv := (Bidict.inv_def s).mp ((Bidict.wf_def s).mp h).2.2
    have hrv : dget s.rev v = some k := hinv.1 (k, v) (dget_mem hkv)
    have e1 : s.evictKey k v = s := evictKey_same s k v hkv
    have e2 : s.evictVal v k = s := evictVal_same s v k hrv
    show (⟨dinsert ((s.evictKey k v).evictVal v k).fwd k v,
        dinsert ((s.evictKey k v).evictVal v k).rev v k⟩ : Bidict α β) = _
    rw [e1, e2]

/-- Witness for C7 at a concrete state. -/
theorem claim_set_idempotent_witness :
    ((Bidict.empty : Bidict Nat Nat).setitem 0 1).setitem 0 1 =
      (Bidict.empty : Bidict Nat Nat).setitem 0 1 :=
  (claim_set_idempotent Bidict.empty 0 1 (by decide)).1

/-- C8 counterexample: `Bidict([(0,1),(1,1),(0,1)])` (a raw sequence seed)
is not the fold of `set` over the raw pairs — the `dict(...)` conversion
deduplicates keys first, so the fold ends with key `0` present while the
construction ends with key `0` absent. -/
theorem claim_construction_counterexample :
    bidictFromSeq [(0, 1), (1, 1), (0, 1)] ≠
      Bidict.update (Bidict.empty : Bidict Nat Nat) [(0, 1), (1, 1), (0, 1)] := by
  decide

/-- C8 amended: bulk `update(pairs)` and construction from a `Mapping` do
apply `set` per pair sequentially in iteration order (a left fold of
`set`); construction from a raw sequence of pairs, however, first
deduplicates the pairs by key through `dict(...)` (later values override
at the first-occurrence position) and only then applies `set` per
remaining pair. -/
theorem claim_construction_fold (s : Bidict α β) (l m q : List (α × β)) :
    s.update l = l.foldl (fun t p => t.setitem p.1 p.2) s ∧
    bidictFromMapping m = m.foldl (fun t p => t.setitem p.1 p.2) Bidict.empty ∧
    bidictFromSeq q =
      (pydict q).foldl (fun t p => t.setitem p.1 p.2) Bidict.empty :=
  ⟨update_eq_foldl l s, update_eq_foldl m _, update_eq_foldl (pydict q) _⟩

/-- C9 counterexample: `Bidict(word=['a','b'], id=[1])` is malformed seed
data (parallel keyword sequences of different lengths), yet construction
succeeds by silently truncating through `zip` instead of failing with
`InvalidArgument`. -/
theorem claim_init_counterexample :
    bidictInit [] [("word", KwVal.mseq [PyV.s "a", PyV.s "b"]),
        ("id", KwVal.mseq [PyV.n 1])] =
      Except.ok (⟨[(PyV.s "a", PyV.n 1)], [(PyV.n 1, PyV.s "a")]⟩,
        "word", "id") :=
  rfl

/-- C9 amended: malformed positional arguments do fail with
`InvalidArgument` before any entry is written — a sequence seed with a
non-pair element anywhere is rejected whole, three or more positional
arguments are rejected, two positional arguments are rejected unless both
are strings, and an unsupported single argument is rejected; but
mismatched-length parallel keyword sequences are not an error: `zip`
silently truncates them to the shorter length. -/
theorem claim_init_invalid (l : List (List PyV)) (a b c : PosArg)
    (rest : List PosArg) (kw : List (String × KwVal))
    (n1 n2 : String) (l1 l2 : List PyV) :
    ((∃ e ∈ l, e.length ≠ 2) →
      bidictInit [PosArg.pseq l] kw = .error .invalidArgument) ∧
    bidictInit (a :: b :: c :: rest) kw = .error .invalidArgument ∧
    ((a.isStr = false ∨ b.isStr = false) →
      bidictInit [a, b] kw = .error .invalidArgument) ∧
    bidictInit [PosArg.pother] kw = .error .invalidArgument ∧
    bidictInit [] [(n1, KwVal.mseq l1), (n2, KwVal.mseq l2)] =
      .ok (Bidict.empty.update (l1.zip l2), n1, n2) := by
  refine ⟨?_, ?_, ?_, ?_, ?_⟩
  · intro hmal
    exact bidictInit_error _ kw _
      (initPos_seq_malformed l (pydictOfRaw_malformed l [] hmal))
  · exact bidictInit_error _ kw _ rfl
  · intro hab
    cases a <;> cases b <;>
      first
        | (exact bidictInit_error _ kw _ rfl)
        | (simp [PosArg.isStr] at hab)
  · exact bidictInit_error _ kw _ rfl
  · rfl

/-- Witness for C9 at concrete malformed inputs. -/
theorem claim_init_invalid_witness :
    bidictInit [PosArg.pseq [[PyV.n 0]]] [] = .error .invalidArgument ∧
    bidictInit [PosArg.pmap [], PosArg.pother] [] = .error .invalidArgument :=
  ⟨(claim_init_invalid [[PyV.n 0]] PosArg.pother PosArg.pother PosArg.pother
      [] [] "" "" [] []).1 ⟨[PyV.n 0], by decide, by decide⟩,
   (claim_init_invalid [] (PosArg.pmap []) PosArg.pother PosArg.pother
      [] [] "" "" [] []).2.2.1 (Or.inl rfl)⟩

/-- C10: The reverse view is a full mutation surface — `bd.r[v] = k` runs
the same symmetric conflict eviction with the two dictionaries' roles
swapped, writes both directions and preserves well-formedness (the
bijection invariant with distinct keys) and equal cardinality. -/
theorem claim_reverse_view_set (s : Bidict α β) (v : β) (k : α) (h : s.WF) :
    (s.setitemRev v k).WF ∧
    (s.setitemRev v k).fwd.length = (s.setitemRev v k).rev.length ∧
    dget (s.setitemRev v k).fwd k = some v ∧
    dget (s.setitemRev v k).rev v = some k ∧
    s.setitemRev v k = (s.swap.setitem v k).swap := by
  have heq := setitemRev_eq_swap s v k
  have hwf' : (s.swap.setitem v k).WF :=
    setitem_WF s.swap v k (Bidict.swap_WF s h)
  have hwf : (s.setitemRev v k).WF := by
    rw [heq]
    exact Bidict.swap_WF _ hwf'
  refine ⟨hwf, WF_length _ hwf, ?_, ?_, heq⟩
  · rw [heq]
    show dget (s.swap.setitem v k).rev k = some v
    rw [setitem_rev]
    exact dget_dinsert_self _ k v
  · rw [heq]
    show dget (s.swap.setitem v k).fwd v = some k
    rw [setitem_fwd]
    exact dget_dinsert_self _ v k

/-- Witness for C10 at a concrete state. -/
theorem claim_reverse_view_set_witness :
    ((Bidict.empty : Bidict Nat Nat).setitemRev 7 3).WF :=
  (claim_reverse_view_set Bidict.empty 7 3 (by decide)).1
